import Mathlib

/-!
Shallow embedding of `verify-api.py`, a one-shot static checker that
cross-checks backend route declarations against frontend API calls.

Strings are modeled as `List Char` (`Str`); the Python string/regex
operations used by the script are embedded as executable structurally
recursive functions:

* `str.replace('/api/', '/')`   → `replaceApi` (left-to-right, non-overlapping,
  the replacement text is not rescanned);
* `str.lstrip('/')`             → `List.dropWhile (· == '/')`;
* `re.sub` on the dollar-brace interpolation pattern → `sub1A false`
  (the greedy character class cannot cross the closing brace, so a match is
  a dollar-brace opener, at least one non-brace character, then the first
  closing brace; `re.sub` resumes scanning right after that closing brace,
  which the skip state `sub1A true` models by consuming up to and including
  the first closing brace);
* `re.sub(r':[^/]+', ':id', s)` → `sub2A false` (a match is a colon followed
  by a maximal nonempty run of non-slash characters; the skip state
  `sub2A true` consumes the tail of the matched run, resuming at the next
  slash or the end — a slash can never start a match, so consuming it
  directly is the same as re-examining it);
* `str.replace(':id', '')`      → `stripId`;
* Python's substring test `in`  → `hasSub`;
* `re.findall` for the call-site patterns (literal prefix, method
  alternation, optional type-parameter segment, quote style, captured
  path) → `tryPat` / `findAll`, where `findAllGo` carries the number of
  still-to-skip characters of the previous match so that scanning resumes
  right after the consumed text, as `re.findall` does.
-/

namespace VerifyApi

abbrev Str := List Char

/-- First occurrence split: `takeUntil q l = some (pre, post)` iff `l = pre ++ q :: post`
with `q ∉ pre`; `none` iff `q` does not occur in `l`. -/
def takeUntil (q : Char) : Str → Option (Str × Str)
  | [] => none
  | c :: rest =>
    if c = q then some ([], rest)
    else
      match takeUntil q rest with
      | some (pre, post) => some (c :: pre, post)
      | none => none

theorem takeUntil_eq_append {q : Char} : ∀ {l pre post : Str},
    takeUntil q l = some (pre, post) → l = pre ++ q :: post := by
  intro l
  induction l with
  | nil => intro pre post h; simp [takeUntil] at h
  | cons c rest ih =>
    intro pre post h
    by_cases hc : c = q
    · subst hc
      simp [takeUntil] at h
      simp [h.1, h.2]
    · simp only [takeUntil, if_neg hc] at h
      cases hr : takeUntil q rest with
      | none => rw [hr] at h; simp at h
      | some pp =>
        obtain ⟨pre', post'⟩ := pp
        rw [hr] at h
        simp at h
        obtain ⟨h1, h2⟩ := h
        have := ih hr
        subst h2
        rw [← h1, this]
        simp

theorem takeUntil_length {q : Char} {l pre post : Str}
    (h : takeUntil q l = some (pre, post)) : post.length < l.length := by
  have := takeUntil_eq_append h
  subst this
  simp
  omega

theorem takeUntil_none_of_not_mem {q : Char} {l : Str} (h : q ∉ l) :
    takeUntil q l = none := by
  induction l with
  | nil => simp [takeUntil]
  | cons c rest ih =>
    simp at h
    simp [takeUntil, ih h.2]
    intro hc
    exact absurd hc.symm h.1

/-- `path.replace('/api/', '/')`: scan left to right, replace each
non-overlapping occurrence of `/api/` by `/`; the emitted `/` is not rescanned. -/
def replaceApi : Str → Str
  | '/' :: 'a' :: 'p' :: 'i' :: '/' :: rest => '/' :: replaceApi rest
  | c :: rest => c :: replaceApi rest
  | [] => []

/-- `re.sub` on the dollar-brace interpolation pattern, as a two-state scanner.
In state `false` we look for a match: a dollar-brace opener such that the
first following closing brace exists and is not immediately adjacent
(`takeUntil` returns a nonempty prefix); we emit `:id` and switch to the skip
state `true`, which consumes up to and including that first closing brace —
exactly the text `re.sub` skips before resuming. On a failed opener the
engine advances one character. -/
def sub1A : Bool → Str → Str
  | _, [] => []
  | true, c :: rest => if c = '\x7d' then sub1A false rest else sub1A true rest
  | false, '$' :: '\x7b' :: rest =>
    match takeUntil '\x7d' rest with
    | some (_ :: _, _) => ':' :: 'i' :: 'd' :: sub1A true rest
    | _ => '$' :: sub1A false ('\x7b' :: rest)
  | false, c :: rest => c :: sub1A false rest

/-- `re.sub(r':[^/]+', ':id', s)` as a two-state scanner. In state `false`,
a colon followed by a non-slash character starts a match: emit `:id` and
switch to the skip state `true`, which consumes the rest of the maximal
non-slash run (the text matched by the greedy class); a colon followed by a
slash, or a lone trailing colon, does not match, and a slash never starts a
match, so both characters are copied. -/
def sub2A : Bool → Str → Str
  | _, [] => []
  | true, c :: rest => if c = '/' then c :: sub2A false rest else sub2A true rest
  | false, ':' :: c :: rest =>
    if c = '/' then ':' :: c :: sub2A false rest
    else ':' :: 'i' :: 'd' :: sub2A true rest
  | false, c :: rest => c :: sub2A false rest

/-- `normalize_path` from the script: replace `/api/` occurrences by `/`,
strip leading slashes, collapse interpolation placeholders to `:id`, then
collapse colon parameters to `:id`. -/
def normalize_path (p : Str) : Str :=
  sub2A false (sub1A false ((replaceApi p).dropWhile (· == '/')))

/-- Python's substring test `pat in l`. -/
def hasSub (pat : Str) : Str → Bool
  | [] => pat.isPrefixOf []
  | c :: t => pat.isPrefixOf (c :: t) || hasSub pat t

/-- `str.replace(':id', '')`: delete the non-overlapping occurrences of `:id`,
left to right. -/
def stripId : Str → Str
  | ':' :: 'i' :: 'd' :: rest => stripId rest
  | c :: rest => c :: stripId rest
  | [] => []

/-- A route record: HTTP method (upper-cased) and path, as produced by both
extractors. -/
structure Route where
  method : Str
  path : Str
deriving DecidableEq

/-- `str.upper()` on the matched (ASCII) method name. -/
def upper (s : Str) : Str := s.map Char.toUpper

/-- The five HTTP methods of the alternation `(get|post|put|delete|patch)`,
in the source's order. No alternative is a prefix of another, so at any
position at most one of them matches and Python's left-to-right alternation
is plain first-match. -/
def methodStrs : List Str :=
  ["get".data, "post".data, "put".data, "delete".data, "patch".data]

def matchMethod (l : Str) : Option (Str × Str) :=
  methodStrs.findSome? fun m => if m.isPrefixOf l then some (m, l.drop m.length) else none

/-- One attempt to match a call-site pattern at the start of `l`:
the literal prefix `pfx` (`router.` or `this.client.`), a method name,
optionally (`typed`) a type-parameter segment (an angle opener, a nonempty
run that the greedy class stops before the first closing angle, the closing
angle), an opening parenthesis, the quote `q`, a nonempty captured run up to
the next `q`, and the closing `q`. Returns the captured (method, path) and
the text after the closing quote. -/
def tryPat (pfx : Str) (typed : Bool) (q : Char) (l : Str) : Option ((Str × Str) × Str) :=
  if pfx.isPrefixOf l then
    match matchMethod (l.drop pfx.length) with
    | none => none
    | some (m, l1) =>
      let l2? : Option Str :=
        if typed then
          match l1 with
          | '<' :: r =>
            match takeUntil '>' r with
            | some (_ :: _, r2) => some r2
            | _ => none
          | _ => none
        else some l1
      match l2? with
      | none => none
      | some l2 =>
        match l2 with
        | '(' :: c0 :: r3 =>
          if c0 = q then
            match takeUntil q r3 with
            | some (p :: ps, r4) => some ((m, p :: ps), r4)
            | _ => none
          else none
        | _ => none
  else none

/-- `re.findall` scan: try the pattern at each position, left to right; on a
match, emit the captured pair and resume right after the matched text. The
`Nat` argument counts characters of the previous match still to be skipped
(`tryPat` consumes the prefix up to and including the closing quote, so after
a match at `l` returning `rest` there are `l.length - rest.length - 1`
characters to skip once the head of `l` is consumed). -/
def findAllGo (pfx : Str) (typed : Bool) (q : Char) : Nat → Str → List (Str × Str)
  | _, [] => []
  | Nat.succ k, _ :: t => findAllGo pfx typed q k t
  | 0, c :: t =>
    match tryPat pfx typed q (c :: t) with
    | some (a, rest) => a :: findAllGo pfx typed q ((c :: t).length - rest.length - 1) t
    | none => findAllGo pfx typed q 0 t

def findAll (pfx : Str) (typed : Bool) (q : Char) (l : Str) : List (Str × Str) :=
  findAllGo pfx typed q 0 l

def fprefix : Str := "this.client.".data
def bprefix : Str := "router.".data

def mkCall (mp : Str × Str) : Route := ⟨upper mp.1, mp.2⟩

/-- `extract_frontend_api_calls`: the four patterns are applied one after the
other to the whole text (typed single-quote, typed double-quote, untyped
single-quote, untyped double-quote), and each match appends one record. -/
def extract_frontend_api_calls (content : Str) : List Route :=
  ((findAll fprefix true '\'' content) ++ (findAll fprefix true '"' content)
    ++ (findAll fprefix false '\'' content) ++ (findAll fprefix false '"' content)).map mkCall

/-- Python `str.strip()` whitespace (the ASCII part, which is all the script
can meet in a captured path). -/
def isPySpace (c : Char) : Bool :=
  c = ' ' || c = '\t' || c = '\n' || c = '\r' || c = '\x0b' || c = '\x0c'

def pstrip (l : Str) : Str :=
  ((l.dropWhile isPySpace).reverse.dropWhile isPySpace).reverse

def mkBackendRoute (mp : Str × Str) : Route := ⟨upper mp.1, pstrip mp.2⟩

/-- Routes of one backend file: the single-quote pattern's matches, then the
double-quote pattern's matches, each upper-cased and path-stripped. -/
def extractBackendFile (content : Str) : List Route :=
  ((findAll bprefix false '\'' content) ++ (findAll bprefix false '"' content)).map mkBackendRoute

/-- `defaultdict(list)` append: add `r` at the end of the group keyed `k`,
creating the group at the end if absent. -/
def addRoute : List (Str × List Route) → Str → Route → List (Str × List Route)
  | [], k, r => [(k, [r])]
  | (k', rs) :: rest, k, r =>
    if k' = k then (k', rs ++ [r]) :: rest else (k', rs) :: addRoute rest k r

/-- `extract_backend_routes` over a directory modeled as a list of
(file stem, file content) pairs in directory-listing order. -/
def extract_backend_routes (files : List (Str × Str)) : List (Str × List Route) :=
  files.foldl (fun gs f => (extractBackendFile f.2).foldl (fun gs r => addRoute gs f.1 r) gs) []

def routesFlat : List (Str × List Route) → List Route
  | [] => []
  | g :: t => g.2 ++ routesFlat t

/-- The normalized key `METHOD:normalized-path` of a record. -/
def normKey (r : Route) : Str := r.method ++ ':' :: normalize_path r.path

/-- The members of the script's `backend_set` (a Python set: only membership
is ever used, so duplicates are irrelevant). -/
def backendKeys (gs : List (Str × List Route)) : List Str := (routesFlat gs).map normKey

/-- The missing-backend loop body for one frontend key: an identical key, or
the backend key with `:id` deleted occurs in the frontend key, or the
frontend key with `:id` deleted occurs in the backend key. -/
def keyMatches (key b : Str) : Bool :=
  b == key || hasSub (stripId b) key || hasSub (stripId key) b

/-- The `for backend_key in backend_set: ... break` search. -/
def foundIn (key : Str) : List Str → Bool
  | [] => false
  | b :: rest => if keyMatches key b then true else foundIn key rest

/-- `missing_backend`: frontend calls whose key is not found. -/
def missingBackend (gs : List (Str × List Route)) (calls : List Route) : List Route :=
  calls.filter fun c => !(foundIn (normKey c) (backendKeys gs))

/-- The hard-coded v2.2 feature table. -/
def v22_features : List (Str × List Str) :=
  [("TAKARA Boost".data,
     ["POST:/investments/:id/boost/takara".data,
      "GET:/investments/:id/boost/takara".data]),
   ("Instant Sale".data,
     ["PUT:/investments/:id/instant-sale".data,
      "POST:/investments/:id/instant-sale/execute".data,
      "GET:/investments/:id/instant-sale/price".data])]

/-- `route.split(':', 1)`: method before the first colon, path after it. -/
def splitMethod (s : Str) : Str × Str :=
  match takeUntil ':' s with
  | some (pre, post) => (pre, post)
  | none => (s, [])

/-- Frontend side of one feature expectation: some call with the expected
method whose normalized path contains or is contained in the expected
normalized path. -/
def featureFrontendHas (calls : List Route) (m normd : Str) : Bool :=
  calls.any fun c =>
    c.method == m && (hasSub (normalize_path c.path) normd || hasSub normd (normalize_path c.path))

/-- Backend side of one feature expectation, over all routes of all groups. -/
def featureBackendHas (gs : List (Str × List Route)) (m normd : Str) : Bool :=
  (routesFlat gs).any fun r =>
    r.method == m && (hasSub normd (normalize_path r.path) || hasSub (normalize_path r.path) normd)

/-- One feature expectation is satisfied when both sides have it. -/
def featRouteOk (gs : List (Str × List Route)) (calls : List Route) (r : Str) : Bool :=
  featureFrontendHas calls (splitMethod r).1 (normalize_path (splitMethod r).2)
    && featureBackendHas gs (splitMethod r).1 (normalize_path (splitMethod r).2)

/-- The `issues_found` flag at the end of `main`: set if `missing_backend` is
nonempty, then possibly set by each feature expectation that is not satisfied
on both sides. -/
def issuesFound (gs : List (Str × List Route)) (calls : List Route) : Bool :=
  v22_features.foldl
    (fun acc feat => feat.2.foldl (fun acc r => if !(featRouteOk gs calls r) then true else acc) acc)
    (!(missingBackend gs calls).isEmpty)

/-- The exit status of `main`, as a function of the two inputs' contents
(the script's fixed paths are assumed readable; an I/O failure would raise
before any of this logic runs). -/
def exitMain (files : List (Str × Str)) (fcontent : Str) : Nat :=
  if issuesFound (extract_backend_routes files) (extract_frontend_api_calls fcontent) then 1 else 0

/-! Lemmas about the normalizer components. -/

def startsWithSlash (l : Str) : Bool := l.head? == some '/'

theorem sub2A_false_head (l : Str) : (sub2A false l).head? = l.head? := by
  rw [sub2A.eq_def]
  split <;> simp_all
  split <;> simp

theorem sub1A_false_head (l : Str) :
    (sub1A false l).head? = l.head? ∨ (sub1A false l).head? = some ':' := by
  rw [sub1A.eq_def]
  split <;> try simp_all
  split <;> simp_all

theorem replaceApi_head (l : Str) : (replaceApi l).head? = l.head? := by
  rw [replaceApi.eq_def]
  split <;> simp

theorem sub1A_false_cons_ne {c : Char} (hc : c ≠ '$') (rest : Str) :
    sub1A false (c :: rest) = c :: sub1A false rest := by
  simp [sub1A, hc]

theorem sub2A_false_cons_ne {c : Char} (hc : c ≠ ':') (rest : Str) :
    sub2A false (c :: rest) = c :: sub2A false rest := by
  simp [sub2A, hc]

theorem replaceApi_cons_ne {c : Char} (hc : c ≠ '/') (rest : Str) :
    replaceApi (c :: rest) = c :: replaceApi rest := by
  simp [replaceApi, hc]

theorem head_eq_cons_of_head? {l : Str} {c : Char} (h : l.head? = some c) :
    ∃ t, l = c :: t := by
  cases l with
  | nil => simp at h
  | cons a t =>
    simp at h
    exact ⟨t, by rw [h]⟩

theorem sub1A_false_cons_inv {l z : Str} {c : Char} (hc : c ≠ ':')
    (h : sub1A false l = c :: z) : ∃ t, l = c :: t ∧ z = sub1A false t := by
  have hl : l.head? = some c := by
    rcases sub1A_false_head l with hh | hh
    · rw [← hh, h]; rfl
    · rw [h] at hh
      simp at hh
      exact absurd hh hc
  obtain ⟨t, rfl⟩ := head_eq_cons_of_head? hl
  by_cases hd : c = '$'
  · subst hd
    cases t with
    | nil =>
      refine ⟨[], rfl, ?_⟩
      simp [sub1A] at h
      simp [sub1A, ← h]
    | cons c2 t2 =>
      by_cases hb : c2 = '\x7b'
      · subst hb
        cases htk : takeUntil '\x7d' t2 with
        | none =>
          rw [sub1A.eq_def] at h
          simp [htk] at h
          exact ⟨_, rfl, h.symm⟩
        | some pp =>
          obtain ⟨pre, post⟩ := pp
          cases pre with
          | nil =>
            rw [sub1A.eq_def] at h
            simp [htk] at h
            exact ⟨_, rfl, h.symm⟩
          | cons p ps =>
            rw [sub1A.eq_def] at h
            simp [htk] at h
      · rw [show sub1A false ('$' :: c2 :: t2) = '$' :: sub1A false (c2 :: t2) by
          simp [sub1A, hb]] at h
        simp at h
        exact ⟨_, rfl, h.symm⟩
  · rw [sub1A_false_cons_ne hd] at h
    simp at h
    exact ⟨_, rfl, h.symm⟩

theorem sub2A_false_cons_inv {l z : Str} {c : Char} (hc : c ≠ ':')
    (h : sub2A false l = c :: z) : ∃ t, l = c :: t ∧ z = sub2A false t := by
  have hl : l.head? = some c := by rw [← sub2A_false_head, h]; rfl
  obtain ⟨t, rfl⟩ := head_eq_cons_of_head? hl
  rw [sub2A_false_cons_ne hc] at h
  simp at h
  exact ⟨_, rfl, h.symm⟩

theorem replaceApi_cons_inv {l z : Str} {c : Char} (hc : c ≠ '/')
    (h : replaceApi l = c :: z) : ∃ t, l = c :: t ∧ z = replaceApi t := by
  have hl : l.head? = some c := by rw [← replaceApi_head, h]; rfl
  obtain ⟨t, rfl⟩ := head_eq_cons_of_head? hl
  rw [replaceApi_cons_ne hc] at h
  simp at h
  exact ⟨_, rfl, h.symm⟩

theorem startsWithSlash_dropWhile (l : Str) :
    startsWithSlash (l.dropWhile (· == '/')) = false := by
  induction l with
  | nil => rfl
  | cons c t ih =>
    by_cases h : c = '/'
    · simpa [List.dropWhile_cons, h] using ih
    · simp [List.dropWhile_cons, h, startsWithSlash]

theorem dropWhile_eq_self_of_not_slash {l : Str} (h : startsWithSlash l = false) :
    l.dropWhile (· == '/') = l := by
  cases l with
  | nil => rfl
  | cons c t =>
    simp [startsWithSlash] at h
    simp [List.dropWhile_cons, h]

theorem hasSub_cons (pat : Str) (c : Char) (t : Str) :
    hasSub pat (c :: t) = (pat.isPrefixOf (c :: t) || hasSub pat t) := rfl

theorem hasSub_tail {pat : Str} {c : Char} {t : Str} (h : hasSub pat (c :: t) = false) :
    hasSub pat t = false := by
  rw [hasSub_cons] at h
  exact (Bool.or_eq_false_iff.mp h).2

theorem hasSub_prefixOf_eq_false {pat l : Str} (h : hasSub pat l = false) :
    pat.isPrefixOf l = false := by
  cases l with
  | nil => simpa [hasSub] using h
  | cons c t => exact (Bool.or_eq_false_iff.mp (by simpa [hasSub_cons] using h)).1

theorem hasSub_append {pat xs ys : Str} (h : hasSub pat (xs ++ ys) = false) :
    hasSub pat ys = false := by
  induction xs with
  | nil => simpa using h
  | cons c t ih => exact ih (hasSub_tail (by simpa using h))

theorem hasSub_suffix {pat l₁ l₂ : Str} (hs : l₁ <:+ l₂) (h : hasSub pat l₂ = false) :
    hasSub pat l₁ = false := by
  obtain ⟨xs, rfl⟩ := hs
  exact hasSub_append h

theorem takeUntil_isSome_of_mem {q : Char} {l : Str} (h : q ∈ l) :
    (takeUntil q l).isSome := by
  induction l with
  | nil => simp at h
  | cons c rest ih =>
    by_cases hc : c = q
    · simp [takeUntil, hc]
    · have hm : q ∈ rest := by
        rcases List.mem_cons.mp h with h1 | h1
        · exact absurd h1.symm hc
        · exact h1
      simp only [takeUntil, if_neg hc]
      cases hr : takeUntil q rest with
      | some pp => rcases pp with ⟨pre, post⟩; simp
      | none => rw [hr] at ih; simp at ih; exact absurd hm ih

theorem not_mem_of_takeUntil_none {q : Char} {l : Str} (h : takeUntil q l = none) :
    q ∉ l := by
  intro hm
  have := takeUntil_isSome_of_mem hm
  rw [h] at this
  simp at this

theorem not_mem_sub1A {c : Char} (hc1 : c ≠ ':') (hc2 : c ≠ 'i') (hc3 : c ≠ 'd')
    (b : Bool) (l : Str) : c ∉ l → c ∉ sub1A b l := by
  induction b, l using sub1A.induct with
  | case1 x => intro h; simp [sub1A]
  | case2 rest ih =>
    intro h
    simp only [sub1A]
    exact ih (fun hm => h (List.mem_cons_of_mem _ hm))
  | case3 c' rest hne ih =>
    intro h
    simp only [sub1A, if_neg hne]
    exact ih (fun hm => h (List.mem_cons_of_mem _ hm))
  | case4 rest hd tl snd htk ih =>
    intro h
    rw [sub1A.eq_def]
    simp [htk]
    refine ⟨hc1, hc2, hc3, ih ?_⟩
    intro hm
    exact h (List.mem_cons_of_mem _ (List.mem_cons_of_mem _ hm))
  | case5 rest hno ih =>
    intro h
    rw [sub1A.eq_def]
    simp at h
    rcases htk : takeUntil '\x7d' rest with _ | ⟨_ | ⟨p, ps⟩, post⟩ <;> simp [htk]
    · exact ⟨h.1, ih (by simp [h.2.1, h.2.2])⟩
    · exact ⟨h.1, ih (by simp [h.2.1, h.2.2])⟩
    · exact absurd (htk ▸ hno p ps post) (by simp)
  | case6 c' rest hg ih =>
    intro h
    simp at h
    have : sub1A false (c' :: rest) = c' :: sub1A false rest := by
      by_cases hd : c' = '$'
      · subst hd
        cases rest with
        | nil => simp [sub1A]
        | cons c2 t2 =>
          have hb : c2 ≠ '\x7b' := by
            intro hb
            exact hg t2 rfl (by rw [hb])
          simp [sub1A, hb]
      · simp [sub1A, hd]
    rw [this]
    simp
    exact ⟨h.1, ih (by simp [h.2])⟩

theorem not_mem_sub2A {c : Char} (hc1 : c ≠ ':') (hc2 : c ≠ 'i') (hc3 : c ≠ 'd')
    (b : Bool) (l : Str) : c ∉ l → c ∉ sub2A b l := by
  induction b, l using sub2A.induct with
  | case1 x => intro h; simp [sub2A]
  | case2 rest ih =>
    intro h
    simp at h
    simp [sub2A]
    exact ⟨h.1, ih (by simp [h.2])⟩
  | case3 c' rest hne ih =>
    intro h
    simp only [sub2A, if_neg hne]
    exact ih (fun hm => h (List.mem_cons_of_mem _ hm))
  | case4 rest ih =>
    intro h
    simp at h
    simp [sub2A]
    refine ⟨h.1, h.2.1, ih (by simp [h.2.2])⟩
  | case5 c' rest hne ih =>
    intro h
    simp at h
    simp [sub2A, if_neg hne]
    exact ⟨hc1, hc2, hc3, ih (by simp [h.2.2])⟩
  | case6 c' rest hg ih =>
    intro h
    simp at h
    have : sub2A false (c' :: rest) = c' :: sub2A false rest := by
      by_cases hd : c' = ':'
      · subst hd
        cases rest with
        | nil => simp [sub2A]
        | cons c2 t2 => exact (hg c2 t2 rfl rfl).elim
      · simp [sub2A, hd]
    rw [this]
    simp
    exact ⟨h.1, ih (by simp [h.2])⟩

/-- Does a dollar-brace placeholder match begin exactly at the head? -/
def startsTmpl : Str → Bool
  | '$' :: '\x7b' :: rest =>
    match takeUntil '\x7d' rest with
    | some (_ :: _, _) => true
    | _ => false
  | _ => false

/-- Does the placeholder pattern match anywhere in the text? -/
def hasTmpl : Str → Bool
  | [] => false
  | c :: t => startsTmpl (c :: t) || hasTmpl t

theorem startsTmpl_ne {c : Char} (hc : c ≠ '$') (t : Str) :
    startsTmpl (c :: t) = false := by
  simp [startsTmpl, hc]

theorem startsTmpl_dollar {t : Str} (h : t.head? ≠ some '\x7b') :
    startsTmpl ('$' :: t) = false := by
  cases t with
  | nil => simp [startsTmpl]
  | cons c2 t2 =>
    have hb : c2 ≠ '\x7b' := by simpa using h
    simp [startsTmpl, hb]

theorem hasTmpl_cons (c : Char) (t : Str) :
    hasTmpl (c :: t) = (startsTmpl (c :: t) || hasTmpl t) := rfl

theorem sub1A_false_cons_of_guard {c : Char} {rest : Str}
    (hg : ∀ rest2, c = '$' → rest = '\x7b' :: rest2 → False) :
    sub1A false (c :: rest) = c :: sub1A false rest := by
  by_cases hd : c = '$'
  · subst hd
    cases rest with
    | nil => simp [sub1A]
    | cons c2 t2 =>
      have hb : c2 ≠ '\x7b' := fun hb => hg t2 rfl (by rw [hb])
      simp [sub1A, hb]
  · simp [sub1A, hd]

/-- If the placeholder pattern matches nowhere, the placeholder substitution
is the identity. -/
theorem sub1A_eq_self_of_not_hasTmpl : ∀ {l : Str}, hasTmpl l = false → sub1A false l = l := by
  intro l
  induction l with
  | nil => intro _; rfl
  | cons c t ih =>
    intro h
    have hs : startsTmpl (c :: t) = false := (Bool.or_eq_false_iff.mp h).1
    have ht : hasTmpl t = false := (Bool.or_eq_false_iff.mp h).2
    by_cases hd : c = '$'
    · subst hd
      cases t with
      | nil => simp [sub1A]
      | cons c2 t2 =>
        by_cases hb : c2 = '\x7b'
        · subst hb
          rcases htk : takeUntil '\x7d' t2 with _ | ⟨_ | ⟨p, ps⟩, post⟩
          · rw [sub1A.eq_def]
            simp only [htk]
            rw [ih ht]
          · rw [sub1A.eq_def]
            simp only [htk]
            rw [ih ht]
          · rw [show startsTmpl ('$' :: '\x7b' :: t2) = true by simp [startsTmpl, htk]] at hs
            simp at hs
        · rw [sub1A_false_cons_of_guard (fun r2 _ hr => hb (by injection hr))]
          rw [ih ht]
    · rw [sub1A_false_cons_ne hd, ih ht]

/-- The output of the placeholder substitution contains no placeholder match. -/
theorem hasTmpl_sub1A (b : Bool) (l : Str) : hasTmpl (sub1A b l) = false := by
  induction b, l using sub1A.induct with
  | case1 x => simp [sub1A, hasTmpl]
  | case2 rest ih => simpa [sub1A] using ih
  | case3 c rest hne ih => simpa [sub1A, hne] using ih
  | case4 rest hd tl snd htk ih =>
    rw [sub1A.eq_def]
    simp only [htk]
    simp [hasTmpl, startsTmpl, ih]
  | case5 rest hno ih =>
    rw [sub1A.eq_def]
    rcases htk : takeUntil '\x7d' rest with _ | ⟨_ | ⟨p, ps⟩, post⟩
    · simp only [htk]
      have hw : sub1A false ('\x7b' :: rest) = '\x7b' :: sub1A false rest :=
        sub1A_false_cons_ne (by decide) rest
      rw [hw] at ih ⊢
      rw [hasTmpl_cons]
      have hm : '\x7d' ∉ sub1A false rest :=
        not_mem_sub1A (by decide) (by decide) (by decide) false rest
          (not_mem_of_takeUntil_none htk)
      have htk2 : takeUntil '\x7d' (sub1A false rest) = none := takeUntil_none_of_not_mem hm
      simp [startsTmpl, htk2]
      simpa [hasTmpl] using ih
    · have hrest : rest = '\x7d' :: post := by simpa using takeUntil_eq_append htk
      simp only [htk]
      subst hrest
      have hw : sub1A false ('\x7b' :: '\x7d' :: post)
          = '\x7b' :: '\x7d' :: sub1A false post := by
        rw [sub1A_false_cons_ne (by decide), sub1A_false_cons_ne (by decide)]
      rw [hw] at ih ⊢
      rw [hasTmpl_cons]
      simp [startsTmpl, takeUntil]
      simpa [hasTmpl, startsTmpl] using ih
    · exact absurd rfl (htk ▸ hno p ps post)
  | case6 c rest hg ih =>
    rw [sub1A_false_cons_of_guard hg, hasTmpl_cons]
    have hstart : startsTmpl (c :: sub1A false rest) = false := by
      by_cases hd : c = '$'
      · subst hd
        apply startsTmpl_dollar
        cases rest with
        | nil => simp [sub1A]
        | cons c2 t2 =>
          have hb : c2 ≠ '\x7b' := fun hb => hg t2 rfl (by rw [hb])
          rcases sub1A_false_head (c2 :: t2) with hh | hh <;> rw [hh] <;> simp [hb]
      · exact startsTmpl_ne hd _
    simp [hstart, ih]

theorem hasTmpl_tail {c : Char} {t : Str} (h : hasTmpl (c :: t) = false) :
    hasTmpl t = false :=
  (Bool.or_eq_false_iff.mp h).2

theorem sub2A_false_cons_of_guard {c : Char} {rest : Str}
    (hg : ∀ c2 rest2, c = ':' → rest = c2 :: rest2 → False) :
    sub2A false (c :: rest) = c :: sub2A false rest := by
  by_cases hd : c = ':'
  · subst hd
    cases rest with
    | nil => simp [sub2A]
    | cons c2 t2 => exact (hg c2 t2 rfl rfl).elim
  · simp [sub2A, hd]

/-- The colon substitution preserves the absence of placeholder matches. -/
theorem hasTmpl_sub2A : ∀ (b : Bool) (l : Str),
    hasTmpl l = false → hasTmpl (sub2A b l) = false := by
  intro b l
  induction b, l using sub2A.induct with
  | case1 x => intro _; simp [sub2A, hasTmpl]
  | case2 rest ih =>
    intro h
    simp only [sub2A, reduceIte]
    rw [hasTmpl_cons]
    simp [startsTmpl_ne (by decide : ('/' : Char) ≠ '$'), ih (hasTmpl_tail h)]
  | case3 c rest hne ih =>
    intro h
    simp only [sub2A, if_neg hne]
    exact ih (hasTmpl_tail h)
  | case4 rest ih =>
    intro h
    simp only [sub2A, reduceIte]
    simp [hasTmpl, startsTmpl, ih (hasTmpl_tail (hasTmpl_tail h))]
  | case5 c rest hne ih =>
    intro h
    simp only [sub2A, if_neg hne]
    simp [hasTmpl, startsTmpl, ih (hasTmpl_tail (hasTmpl_tail h))]
  | case6 c rest hg ih =>
    intro h
    rw [sub2A_false_cons_of_guard hg, hasTmpl_cons]
    have hstart : startsTmpl (c :: sub2A false rest) = false := by
      by_cases hd : c = '$'
      · subst hd
        cases rest with
        | nil => simp [sub2A, startsTmpl]
        | cons c2 t2 =>
          by_cases hb : c2 = '\x7b'
          · subst hb
            have hs := (Bool.or_eq_false_iff.mp h).1
            rw [sub2A_false_cons_ne (by decide)]
            rcases htk : takeUntil '\x7d' t2 with _ | ⟨_ | ⟨p, ps⟩, post⟩
            · have hm : '\x7d' ∉ sub2A false t2 :=
                not_mem_sub2A (by decide) (by decide) (by decide) false t2
                  (not_mem_of_takeUntil_none htk)
              simp [startsTmpl, takeUntil_none_of_not_mem hm]
            · have ht2 : t2 = '\x7d' :: post := by simpa using takeUntil_eq_append htk
              subst ht2
              rw [sub2A_false_cons_ne (by decide)]
              simp [startsTmpl, takeUntil]
            · rw [show startsTmpl ('$' :: '\x7b' :: t2) = true by simp [startsTmpl, htk]] at hs
              simp at hs
          · apply startsTmpl_dollar
            rw [sub2A_false_head]
            simp [hb]
      · exact startsTmpl_ne hd _
    simp [hstart, ih (hasTmpl_tail h)]

/-- The colon substitution is idempotent. -/
theorem sub2A_idem : ∀ (b : Bool) (l : Str), sub2A b (sub2A b l) = sub2A b l := by
  intro b l
  induction b, l using sub2A.induct with
  | case1 x => simp [sub2A]
  | case2 rest ih => simp [sub2A, ih]
  | case3 c rest hne ih => simp [sub2A, hne, ih]
  | case4 rest ih => simp [sub2A, ih]
  | case5 c rest hne ih => simp [sub2A, hne, ih]
  | case6 c rest hg ih =>
    rw [sub2A_false_cons_of_guard hg]
    by_cases hd : c = ':'
    · subst hd
      have hnil : rest = [] := by
        cases rest with
        | nil => rfl
        | cons c2 t2 => exact (hg c2 t2 rfl rfl).elim
      subst hnil
      simp [sub2A]
    · rw [sub2A_false_cons_ne hd, ih]

theorem api_data_eq : "/api/".data = '/' :: 'a' :: 'p' :: 'i' :: '/' :: [] := rfl

theorem apiapi_data_eq :
    "/api/api/".data = '/' :: 'a' :: 'p' :: 'i' :: '/' :: 'a' :: 'p' :: 'i' :: '/' :: [] := rfl

theorem api_isPrefixOf_iff {l : Str} :
    "/api/".data.isPrefixOf l = true ↔ ∃ w, l = '/' :: 'a' :: 'p' :: 'i' :: '/' :: w := by
  rw [List.isPrefixOf_iff_prefix]
  constructor
  · rintro ⟨w, hw⟩
    exact ⟨w, by rw [← hw]; rfl⟩
  · rintro ⟨w, rfl⟩
    exact ⟨w, rfl⟩

theorem replaceApi_cons_of_guard {c : Char} {rest : Str}
    (hg : ∀ rest2, c = '/' → rest = 'a' :: 'p' :: 'i' :: '/' :: rest2 → False) :
    replaceApi (c :: rest) = c :: replaceApi rest := by
  by_cases hd : c = '/'
  · subst hd
    rcases rest with _ | ⟨c1, rest⟩
    · simp [replaceApi]
    · by_cases h1 : c1 = 'a'
      · subst h1
        rcases rest with _ | ⟨c2, rest⟩
        · simp [replaceApi]
        · by_cases h2 : c2 = 'p'
          · subst h2
            rcases rest with _ | ⟨c3, rest⟩
            · simp [replaceApi]
            · by_cases h3 : c3 = 'i'
              · subst h3
                rcases rest with _ | ⟨c4, rest⟩
                · simp [replaceApi]
                · by_cases h4 : c4 = '/'
                  · subst h4
                    exact (hg rest rfl rfl).elim
                  · simp [replaceApi, h4]
              · simp [replaceApi, h3]
          · simp [replaceApi, h2]
      · simp [replaceApi, h1]
  · simp [replaceApi, hd]

theorem sub1A_api_pull {l w : Str}
    (h : sub1A false l = 'a' :: 'p' :: 'i' :: '/' :: w) :
    ∃ wl, l = 'a' :: 'p' :: 'i' :: '/' :: wl := by
  obtain ⟨t1, rfl, h1⟩ := sub1A_false_cons_inv (by decide) h
  obtain ⟨t2, rfl, h2⟩ := sub1A_false_cons_inv (by decide) h1.symm
  obtain ⟨t3, rfl, h3⟩ := sub1A_false_cons_inv (by decide) h2.symm
  obtain ⟨t4, rfl, _⟩ := sub1A_false_cons_inv (by decide) h3.symm
  exact ⟨t4, rfl⟩

theorem sub2A_api_pull {l w : Str}
    (h : sub2A false l = 'a' :: 'p' :: 'i' :: '/' :: w) :
    ∃ wl, l = 'a' :: 'p' :: 'i' :: '/' :: wl := by
  obtain ⟨t1, rfl, h1⟩ := sub2A_false_cons_inv (by decide) h
  obtain ⟨t2, rfl, h2⟩ := sub2A_false_cons_inv (by decide) h1.symm
  obtain ⟨t3, rfl, h3⟩ := sub2A_false_cons_inv (by decide) h2.symm
  obtain ⟨t4, rfl, _⟩ := sub2A_false_cons_inv (by decide) h3.symm
  exact ⟨t4, rfl⟩

theorem replaceApi_api_pull {l w : Str}
    (h : replaceApi l = 'a' :: 'p' :: 'i' :: '/' :: w) :
    ∃ wl, l = 'a' :: 'p' :: 'i' :: '/' :: wl := by
  obtain ⟨t1, rfl, h1⟩ := replaceApi_cons_inv (by decide) h
  obtain ⟨t2, rfl, h2⟩ := replaceApi_cons_inv (by decide) h1.symm
  obtain ⟨t3, rfl, h3⟩ := replaceApi_cons_inv (by decide) h2.symm
  have hh : t3.head? = some '/' := by rw [← replaceApi_head, ← h3]; rfl
  obtain ⟨t4, rfl⟩ := head_eq_cons_of_head? hh
  exact ⟨t4, rfl⟩

/-- If the text has no `/api/` occurrence, the replacement is the identity. -/
theorem replaceApi_eq_self_of_not_hasApi : ∀ {l : Str},
    hasSub "/api/".data l = false → replaceApi l = l := by
  intro l
  induction l using replaceApi.induct with
  | case1 rest ih =>
    intro h
    have : "/api/".data.isPrefixOf ('/' :: 'a' :: 'p' :: 'i' :: '/' :: rest) = true :=
      api_isPrefixOf_iff.mpr ⟨rest, rfl⟩
    rw [hasSub_cons, this] at h
    simp at h
  | case2 c rest hg ih =>
    intro h
    rw [replaceApi_cons_of_guard hg, ih (hasSub_tail h)]
  | case3 =>
    intro _
    rfl

/-- If the text has no `/api/api/` occurrence, the output of the replacement
has no `/api/` occurrence (the replacement slash can only recombine into a
new occurrence when the input had two overlapping occurrences). -/
theorem not_hasApi_replaceApi : ∀ {l : Str},
    hasSub "/api/api/".data l = false → hasSub "/api/".data (replaceApi l) = false := by
  intro l
  induction l using replaceApi.induct with
  | case1 rest ih =>
    intro h
    have hstep : replaceApi ('/' :: 'a' :: 'p' :: 'i' :: '/' :: rest)
        = '/' :: replaceApi rest := by simp [replaceApi]
    rw [hstep, hasSub_cons]
    refine Bool.or_eq_false_iff.mpr ⟨?_, ih ?_⟩
    · by_contra hp
      simp only [Bool.not_eq_false] at hp
      obtain ⟨w, hw⟩ := api_isPrefixOf_iff.mp hp
      obtain ⟨h1, h2⟩ := List.cons.inj hw
      obtain ⟨wl, rfl⟩ := replaceApi_api_pull h2
      have : "/api/api/".data.isPrefixOf
          ('/' :: 'a' :: 'p' :: 'i' :: '/' :: 'a' :: 'p' :: 'i' :: '/' :: wl) = true := by
        rw [List.isPrefixOf_iff_prefix, apiapi_data_eq]
        exact ⟨wl, rfl⟩
      rw [hasSub_cons, this] at h
      simp at h
    · have : ('/' :: 'a' :: 'p' :: 'i' :: '/' :: rest)
          = "/api/".data ++ rest := by rw [api_data_eq]; rfl
      rw [this] at h
      exact hasSub_append h
  | case2 c rest hg ih =>
    intro h
    rw [replaceApi_cons_of_guard hg, hasSub_cons]
    refine Bool.or_eq_false_iff.mpr ⟨?_, ih (hasSub_tail h)⟩
    by_cases hd : c = '/'
    · subst hd
      by_contra hp
      simp only [Bool.not_eq_false] at hp
      obtain ⟨w, hw⟩ := api_isPrefixOf_iff.mp hp
      obtain ⟨h1, h2⟩ := List.cons.inj hw
      obtain ⟨wl, rfl⟩ := replaceApi_api_pull h2
      exact hg wl rfl rfl
    · simp [api_data_eq, List.isPrefixOf, Ne.symm hd]
  | case3 =>
    intro h
    exact h

/-- The placeholder substitution creates no `/api/` occurrence. -/
theorem not_hasApi_sub1A : ∀ (b : Bool) (l : Str),
    hasSub "/api/".data l = false → hasSub "/api/".data (sub1A b l) = false := by
  intro b l
  induction b, l using sub1A.induct with
  | case1 x => intro _; simp [sub1A, hasSub]
  | case2 rest ih =>
    intro h
    simp only [sub1A, reduceIte]
    exact ih (hasSub_tail h)
  | case3 c rest hne ih =>
    intro h
    simp only [sub1A, if_neg hne]
    exact ih (hasSub_tail h)
  | case4 rest hd tl snd htk ih =>
    intro h
    rw [sub1A.eq_def]
    simp only [htk]
    rw [hasSub_cons, hasSub_cons, hasSub_cons]
    have hrec := ih (hasSub_tail (hasSub_tail h))
    simp [api_data_eq, List.isPrefixOf, hrec]
  | case5 rest hno ih =>
    intro h
    rcases htk : takeUntil '\x7d' rest with _ | ⟨_ | ⟨p, ps⟩, post⟩
    · rw [sub1A.eq_def]
      simp only [htk]
      rw [hasSub_cons]
      have hrec := ih (hasSub_tail h)
      simp [api_data_eq, List.isPrefixOf, hrec]
    · rw [sub1A.eq_def]
      simp only [htk]
      rw [hasSub_cons]
      have hrec := ih (hasSub_tail h)
      simp [api_data_eq, List.isPrefixOf, hrec]
    · exact absurd rfl (htk ▸ hno p ps post)
  | case6 c rest hg ih =>
    intro h
    rw [sub1A_false_cons_of_guard hg, hasSub_cons]
    refine Bool.or_eq_false_iff.mpr ⟨?_, ih (hasSub_tail h)⟩
    by_cases hd : c = '/'
    · subst hd
      by_contra hp
      simp only [Bool.not_eq_false] at hp
      obtain ⟨w, hw⟩ := api_isPrefixOf_iff.mp hp
      obtain ⟨h1, h2⟩ := List.cons.inj hw
      obtain ⟨wl, rfl⟩ := sub1A_api_pull h2
      have : "/api/".data.isPrefixOf ('/' :: 'a' :: 'p' :: 'i' :: '/' :: wl) = true :=
        api_isPrefixOf_iff.mpr ⟨wl, rfl⟩
      rw [hasSub_cons, this] at h
      simp at h
    · simp [api_data_eq, List.isPrefixOf, Ne.symm hd]

/-- The colon substitution creates no `/api/` occurrence. -/
theorem not_hasApi_sub2A : ∀ (b : Bool) (l : Str),
    hasSub "/api/".data l = false → hasSub "/api/".data (sub2A b l) = false := by
  intro b l
  induction b, l using sub2A.induct with
  | case1 x => intro _; simp [sub2A, hasSub]
  | case2 rest ih =>
    intro h
    simp only [sub2A, reduceIte]
    rw [hasSub_cons]
    refine Bool.or_eq_false_iff.mpr ⟨?_, ih (hasSub_tail h)⟩
    by_contra hp
    simp only [Bool.not_eq_false] at hp
    obtain ⟨w, hw⟩ := api_isPrefixOf_iff.mp hp
    obtain ⟨h1, h2⟩ := List.cons.inj hw
    obtain ⟨wl, rfl⟩ := sub2A_api_pull h2
    have : "/api/".data.isPrefixOf ('/' :: 'a' :: 'p' :: 'i' :: '/' :: wl) = true :=
      api_isPrefixOf_iff.mpr ⟨wl, rfl⟩
    rw [hasSub_cons, this] at h
    simp at h
  | case3 c rest hne ih =>
    intro h
    simp only [sub2A, if_neg hne]
    exact ih (hasSub_tail h)
  | case4 rest ih =>
    intro h
    simp only [sub2A, reduceIte]
    rw [hasSub_cons, hasSub_cons]
    have hrec := ih (hasSub_tail (hasSub_tail h))
    have hp2 : "/api/".data.isPrefixOf ('/' :: sub2A false rest) = false := by
      by_contra hp
      simp only [Bool.not_eq_false] at hp
      obtain ⟨w, hw⟩ := api_isPrefixOf_iff.mp hp
      obtain ⟨h1, h2⟩ := List.cons.inj hw
      obtain ⟨wl, rfl⟩ := sub2A_api_pull h2
      have hs : hasSub "/api/".data ('/' :: 'a' :: 'p' :: 'i' :: '/' :: wl) = false :=
        hasSub_tail h
      have : "/api/".data.isPrefixOf ('/' :: 'a' :: 'p' :: 'i' :: '/' :: wl) = true :=
        api_isPrefixOf_iff.mpr ⟨wl, rfl⟩
      rw [hasSub_cons, this] at hs
      simp at hs
    rw [hp2]
    simp [api_data_eq, List.isPrefixOf, hrec]
  | case5 c rest hne ih =>
    intro h
    simp only [sub2A, if_neg hne]
    rw [hasSub_cons, hasSub_cons, hasSub_cons]
    have hrec := ih (hasSub_tail (hasSub_tail h))
    simp [api_data_eq, List.isPrefixOf, hrec]
  | case6 c rest hg ih =>
    intro h
    rw [sub2A_false_cons_of_guard hg, hasSub_cons]
    refine Bool.or_eq_false_iff.mpr ⟨?_, ih (hasSub_tail h)⟩
    by_cases hd : c = '/'
    · subst hd
      by_contra hp
      simp only [Bool.not_eq_false] at hp
      obtain ⟨w, hw⟩ := api_isPrefixOf_iff.mp hp
      obtain ⟨h1, h2⟩ := List.cons.inj hw
      obtain ⟨wl, rfl⟩ := sub2A_api_pull h2
      have : "/api/".data.isPrefixOf ('/' :: 'a' :: 'p' :: 'i' :: '/' :: wl) = true :=
        api_isPrefixOf_iff.mpr ⟨wl, rfl⟩
      rw [hasSub_cons, this] at h
      simp at h
    · simp [api_data_eq, List.isPrefixOf, Ne.symm hd]

/-- The normalized path never begins with a slash: the slash strip happens
after the prefix replacement, and the two substitutions only ever put `:id`
at the front. -/
theorem normalize_no_slash (p : Str) : startsWithSlash (normalize_path p) = false := by
  have h0 : startsWithSlash ((replaceApi p).dropWhile (· == '/')) = false :=
    startsWithSlash_dropWhile _
  show startsWithSlash (sub2A false (sub1A false ((replaceApi p).dropWhile (· == '/')))) = false
  unfold startsWithSlash at h0 ⊢
  rw [sub2A_false_head]
  rcases sub1A_false_head ((replaceApi p).dropWhile (· == '/')) with hh | hh <;> rw [hh]
  · exact h0
  · decide

/-- The normalized path contains no placeholder match. -/
theorem normalize_no_tmpl (p : Str) : hasTmpl (normalize_path p) = false :=
  hasTmpl_sub2A false _ (hasTmpl_sub1A false _)

end VerifyApi

namespace VerifyApi

/-- C7: `normalize_path` maps both `/api/users/:id` and the template form
`users/${userId}` to the same string `users/:id`. -/
theorem normalize_path_canonical_examples :
    normalize_path "/api/users/:id".data = "users/:id".data ∧
    normalize_path "users/${userId}".data = "users/:id".data := by decide

/-- C10: for every input string, the normalized path does not begin with the
path separator character. -/
theorem normalize_path_no_leading_separator (p : Str) :
    startsWithSlash (normalize_path p) = false :=
  normalize_no_slash p

/-- C4 counterexample: normalization is not idempotent. On `a/api/api/b` the
first pass leaves `a/api/b` (the replacement slash recombines with the second,
overlapping occurrence, and the result is not rescanned), and a second pass
removes the remaining `/api/`, giving `a/b`. -/
theorem normalize_path_not_idempotent_cx :
    normalize_path "a/api/api/b".data = "a/api/b".data ∧
    normalize_path (normalize_path "a/api/api/b".data) = "a/b".data := by decide

/-- C4 amended: normalization is idempotent for every input whose normalized
form contains no `/api/` occurrence (the only way a second pass can differ is
through the textual `/api/` replacement; leading-slash stripping, placeholder
collapse and colon collapse are already fixed on any first-pass output). -/
theorem normalize_path_idem_of_no_api (p : Str)
    (h : hasSub "/api/".data (normalize_path p) = false) :
    normalize_path (normalize_path p) = normalize_path p := by
  have h1 : replaceApi (normalize_path p) = normalize_path p :=
    replaceApi_eq_self_of_not_hasApi h
  have h2 : (normalize_path p).dropWhile (· == '/') = normalize_path p :=
    dropWhile_eq_self_of_not_slash (normalize_no_slash p)
  have h4 : sub1A false (normalize_path p) = normalize_path p :=
    sub1A_eq_self_of_not_hasTmpl (normalize_no_tmpl p)
  have h5 : sub2A false (normalize_path p) = normalize_path p :=
    sub2A_idem false (sub1A false ((replaceApi p).dropWhile (· == '/')))
  calc normalize_path (normalize_path p)
      = sub2A false (sub1A false ((replaceApi (normalize_path p)).dropWhile (· == '/'))) := rfl
    _ = sub2A false (sub1A false ((normalize_path p).dropWhile (· == '/'))) := by rw [h1]
    _ = sub2A false (sub1A false (normalize_path p)) := by rw [h2]
    _ = sub2A false (normalize_path p) := by rw [h4]
    _ = normalize_path p := h5

/-- C4 amended witness: the hypothesis and the conclusion at `/api/users/:id`. -/
theorem normalize_path_idem_of_no_api_witness :
    hasSub "/api/".data (normalize_path "/api/users/:id".data) = false ∧
    normalize_path (normalize_path "/api/users/:id".data)
      = normalize_path "/api/users/:id".data :=
  ⟨by decide, normalize_path_idem_of_no_api ("/api/users/:id".data) (by decide)⟩

/-- C5 counterexample: normalization does not remove every textual `/api/`
occurrence. In `a/api/api/b` the two occurrences overlap; the replacement
removes the first, and the emitted slash recombines with the remaining text
into a `/api/` occurrence that survives normalization. -/
theorem normalize_path_api_survives_cx :
    hasSub "/api/".data "a/api/api/b".data = true ∧
    hasSub "/api/".data (normalize_path "a/api/api/b".data) = true := by decide

/-- C5 amended: for every path that does not contain the substring
`/api/api/` (no two overlapping occurrences whose removal can recombine),
the normalized result contains no occurrence of `/api/`. -/
theorem normalize_path_removes_api (p : Str)
    (h : hasSub "/api/api/".data p = false) :
    hasSub "/api/".data (normalize_path p) = false := by
  have h1 : hasSub "/api/".data (replaceApi p) = false := not_hasApi_replaceApi h
  have h2 : hasSub "/api/".data ((replaceApi p).dropWhile (· == '/')) = false :=
    hasSub_suffix (List.dropWhile_suffix _) h1
  exact not_hasApi_sub2A false _ (not_hasApi_sub1A false _ h2)

/-- C5 amended witness: the hypothesis and the conclusion at `/x/api/y/api/z`. -/
theorem normalize_path_removes_api_witness :
    hasSub "/api/api/".data "/x/api/y/api/z".data = false ∧
    hasSub "/api/".data (normalize_path "/x/api/y/api/z".data) = false :=
  ⟨by decide, normalize_path_removes_api ("/x/api/y/api/z".data) (by decide)⟩

/-- The spec's description of the missing-backend check (§4.4 d): found iff an
identical key exists in the backend set, OR, after stripping the parameter
token `:id` from BOTH the frontend key and the backend key, one of the two
stripped strings is a substring of the other. This follows the spec's words;
the program's own loop is `foundIn`/`keyMatches`, which strips only one side
in each disjunct. -/
def specFound (key : Str) (backendSet : List Str) : Bool :=
  backendSet.any fun b =>
    b == key || hasSub (stripId b) (stripId key) || hasSub (stripId key) (stripId b)

theorem keyMatches_eq_true_iff {key b : Str} :
    keyMatches key b = true ↔
      (b = key ∨ hasSub (stripId b) key = true ∨ hasSub (stripId key) b = true) := by
  simp [keyMatches, Bool.or_eq_true, beq_iff_eq, or_assoc]

end VerifyApi

namespace VerifyApi

/-- C3 counterexample: the program's found-decision differs from the spec's
strip-both-sides containment predicate. With the frontend call
`GET xp//q` (key `GET:xp//q`) and the single backend route `GET xp/:foo/qy`
(key `GET:xp/:id/qy`), stripping `:id` from both keys gives `GET:xp//q` and
`GET:xp//qy`, the first a substring of the second, so the spec's predicate
says found — but the program strips only one side at a time and reports not
found. -/
theorem found_decision_spec_divergence_cx :
    foundIn (normKey ⟨"GET".data, "xp//q".data⟩)
        [normKey ⟨"GET".data, "xp/:foo/qy".data⟩] = false ∧
    specFound (normKey ⟨"GET".data, "xp//q".data⟩)
        [normKey ⟨"GET".data, "xp/:foo/qy".data⟩] = true ∧
    normKey ⟨"GET".data, "xp//q".data⟩ = "GET:xp//q".data ∧
    normKey ⟨"GET".data, "xp/:foo/qy".data⟩ = "GET:xp/:id/qy".data := by decide

/-- C3 amended: the program's found-decision holds iff some backend key is
identical to the frontend key, or the backend key with `:id` deleted occurs
as a substring of the (unstripped) frontend key, or the frontend key with
`:id` deleted occurs as a substring of the (unstripped) backend key. -/
theorem found_decision_iff (key : Str) (backendSet : List Str) :
    foundIn key backendSet = true ↔
      ∃ b ∈ backendSet,
        (b = key ∨ hasSub (stripId b) key = true ∨ hasSub (stripId key) b = true) := by
  induction backendSet with
  | nil => simp [foundIn]
  | cons b rest ih =>
    simp only [foundIn]
    by_cases h : keyMatches key b = true
    · simp only [if_pos h]
      constructor
      · intro _
        exact ⟨b, by simp, keyMatches_eq_true_iff.mp h⟩
      · intro _
        trivial
    · rw [if_neg (by simpa using h), ih]
      constructor
      · rintro ⟨b', hm, hp⟩
        exact ⟨b', by simp [hm], hp⟩
      · rintro ⟨b', hm, hp⟩
        rcases List.mem_cons.mp hm with rfl | hm2
        · exact absurd (keyMatches_eq_true_iff.mpr hp) h
        · exact ⟨b', hm2, hp⟩

theorem foldl_flag {α : Type} (c : α → Bool) (b : Bool) (l : List α) :
    l.foldl (fun acc x => if c x then true else acc) b = (b || l.any c) := by
  induction l generalizing b with
  | nil => simp
  | cons x t ih =>
    simp only [List.foldl_cons, List.any_cons]
    rw [ih]
    by_cases h : c x <;> simp [h]

theorem foldl_congr2 {α β : Type} {f g : β → α → β} (h : ∀ b a, f b a = g b a) :
    ∀ (l : List α) (b : β), l.foldl f b = l.foldl g b := by
  intro l
  induction l with
  | nil => intro b; rfl
  | cons x t ih =>
    intro b
    simp only [List.foldl_cons]
    rw [h b x, ih]

theorem foldl_or {α : Type} (g : α → Bool) (b : Bool) (l : List α) :
    l.foldl (fun acc x => acc || g x) b = (b || l.any g) := by
  induction l generalizing b with
  | nil => simp
  | cons x t ih =>
    simp only [List.foldl_cons, List.any_cons]
    rw [ih]
    simp [Bool.or_assoc]

theorem any_eq_false_iff {α : Type} {p : α → Bool} {l : List α} :
    l.any p = false ↔ ∀ x ∈ l, p x = false := by
  induction l with
  | nil => simp
  | cons x t ih => simp [List.any_cons, Bool.or_eq_false_iff, ih]

/-- The `issues_found` flag is: missing list nonempty, or some feature
expectation not satisfied on both sides. -/
theorem issuesFound_eq (gs : List (Str × List Route)) (calls : List Route) :
    issuesFound gs calls =
      (!(missingBackend gs calls).isEmpty
        || v22_features.any fun feat => feat.2.any fun r => !(featRouteOk gs calls r)) := by
  unfold issuesFound
  have step : (fun (acc : Bool) (feat : Str × List Str) =>
      feat.2.foldl (fun acc r => if !(featRouteOk gs calls r) then true else acc) acc)
      = fun acc feat => (acc || feat.2.any fun r => !(featRouteOk gs calls r)) := by
    funext acc feat
    exact foldl_flag _ _ _
  rw [step]
  exact foldl_or _ _ _

end VerifyApi

namespace VerifyApi

/-- C1: the exit status is 0 iff no frontend call is reported missing on the
backend and every expectation of the fixed v2.2 feature table is satisfied
on both the frontend and the backend side; otherwise it is 1 (both input
paths are assumed readable: the embedding starts from the file contents, and
an I/O failure would raise before this logic runs). -/
theorem exit_status_iff (files : List (Str × Str)) (fcontent : Str) :
    (exitMain files fcontent = 0 ∨ exitMain files fcontent = 1) ∧
    (exitMain files fcontent = 0 ↔
      (missingBackend (extract_backend_routes files) (extract_frontend_api_calls fcontent) = []
        ∧ ∀ feat ∈ v22_features, ∀ r ∈ feat.2,
            featureFrontendHas (extract_frontend_api_calls fcontent) (splitMethod r).1
                (normalize_path (splitMethod r).2) = true
              ∧ featureBackendHas (extract_backend_routes files) (splitMethod r).1
                  (normalize_path (splitMethod r).2) = true)) := by
  constructor
  · unfold exitMain
    by_cases h : issuesFound (extract_backend_routes files)
        (extract_frontend_api_calls fcontent) <;> simp [h]
  unfold exitMain
  have hif : ∀ b : Bool, (if b then (1 : Nat) else 0) = 0 ↔ b = false := by
    intro b
    cases b <;> simp
  rw [hif, issuesFound_eq, Bool.or_eq_false_iff, any_eq_false_iff]
  simp only [Bool.not_eq_false', List.isEmpty_iff]
  constructor
  · rintro ⟨h1, h2⟩
    refine ⟨h1, fun feat hf r hr => ?_⟩
    have h4 := any_eq_false_iff.mp (h2 feat hf) r hr
    have h5 : featRouteOk (extract_backend_routes files)
        (extract_frontend_api_calls fcontent) r = true := by simpa using h4
    simpa [featRouteOk, Bool.and_eq_true] using h5
  · rintro ⟨h1, h2⟩
    refine ⟨h1, fun feat hf => any_eq_false_iff.mpr fun r hr => ?_⟩
    have h5 := h2 feat hf r hr
    simp only [Bool.not_eq_false', featRouteOk, Bool.and_eq_true]
    exact h5

/-- C2 counterexample: for a backend directory with exactly one route file
declaring only `GET '/users'` and a frontend client file with the single call
`this.client.get('/users')`, the run does report zero missing-backend
discrepancies, but the exit status is 1, not 0: the hard-coded v2.2 feature
expectations are not present in these files, and any missing expectation sets
the failure flag. -/
theorem users_scenario_exit_cx :
    missingBackend
        (extract_backend_routes [("users.routes".data, "router.get('/users');".data)])
        (extract_frontend_api_calls "this.client.get('/users');".data) = [] ∧
    exitMain [("users.routes".data, "router.get('/users');".data)]
        "this.client.get('/users');".data = 1 := by decide

/-- C2 amended: in that scenario the run reports zero missing-backend
discrepancies and terminates with exit status 1, because at least one v2.2
feature expectation is unsatisfied. -/
theorem users_scenario_amended :
    missingBackend
        (extract_backend_routes [("users.routes".data, "router.get('/users');".data)])
        (extract_frontend_api_calls "this.client.get('/users');".data) = [] ∧
    exitMain [("users.routes".data, "router.get('/users');".data)]
        "this.client.get('/users');".data = 1 ∧
    (v22_features.any fun feat => feat.2.any fun r =>
      !(featRouteOk
          (extract_backend_routes [("users.routes".data, "router.get('/users');".data)])
          (extract_frontend_api_calls "this.client.get('/users');".data) r)) = true := by
  decide

theorem mem_tails_of_suffix {l t : Str} (h : l <:+ t) : l ∈ t.tails :=
  (List.mem_tails l t).mpr h

theorem findAllGo_zero_nil {pfx : Str} {typed : Bool} {q : Char} : ∀ {t : Str},
    (∀ l ∈ t.tails, tryPat pfx typed q l = none) → findAllGo pfx typed q 0 t = [] := by
  intro t
  induction t with
  | nil => intro _; rfl
  | cons c t2 ih =>
    intro h
    have h0 : tryPat pfx typed q (c :: t2) = none :=
      h _ (mem_tails_of_suffix (List.suffix_refl _))
    simp only [findAllGo, h0]
    exact ih fun l hl =>
      h l (mem_tails_of_suffix (((List.mem_tails l t2).mp hl).trans (List.suffix_cons c t2)))

theorem findAll_nil {pfx : Str} {typed : Bool} {q : Char} {t : Str}
    (h : ∀ l ∈ t.tails, tryPat pfx typed q l = none) : findAll pfx typed q t = [] :=
  findAllGo_zero_nil h

theorem extractBackendFile_nil {t : Str}
    (h : ∀ l ∈ t.tails,
      tryPat bprefix false '\'' l = none ∧ tryPat bprefix false '"' l = none) :
    extractBackendFile t = [] := by
  unfold extractBackendFile
  rw [findAll_nil fun l hl => (h l hl).1, findAll_nil fun l hl => (h l hl).2]
  rfl

theorem extract_backend_routes_nil : ∀ {files : List (Str × Str)},
    (∀ f ∈ files, ∀ l ∈ (f.2 : Str).tails,
      tryPat bprefix false '\'' l = none ∧ tryPat bprefix false '"' l = none) →
    extract_backend_routes files = [] := by
  intro files
  induction files with
  | nil => intro _; rfl
  | cons f t ih =>
    intro h
    unfold extract_backend_routes
    simp only [List.foldl_cons]
    rw [extractBackendFile_nil (h f (by simp))]
    simp only [List.foldl_nil]
    exact ih fun f2 hf2 => h f2 (by simp [hf2])

end VerifyApi

namespace VerifyApi

/-- C8: for input texts in which no occurrence of any extraction pattern
matches (the pattern fails at every suffix of the text), the extractors
return empty collections — an empty grouping for the backend directory and
an empty call list for the frontend file — rather than failing (the
embedding is total, so no exception is possible). -/
theorem extractors_empty_on_patternless (files : List (Str × Str)) (tf : Str)
    (hb : ∀ f ∈ files, ∀ l ∈ (f.2 : Str).tails,
      tryPat bprefix false '\'' l = none ∧ tryPat bprefix false '"' l = none)
    (hf : ∀ l ∈ tf.tails,
      tryPat fprefix true '\'' l = none ∧ tryPat fprefix true '"' l = none ∧
      tryPat fprefix false '\'' l = none ∧ tryPat fprefix false '"' l = none) :
    extract_backend_routes files = [] ∧ extract_frontend_api_calls tf = [] := by
  refine ⟨extract_backend_routes_nil hb, ?_⟩
  unfold extract_frontend_api_calls
  rw [findAll_nil fun l hl => (hf l hl).1, findAll_nil fun l hl => (hf l hl).2.1,
    findAll_nil fun l hl => (hf l hl).2.2.1, findAll_nil fun l hl => (hf l hl).2.2.2]
  rfl

/-- C8 witness: concrete pattern-free backend and frontend files. -/
theorem extractors_empty_on_patternless_witness :
    extract_backend_routes [("a.routes".data, "export const x = 1;".data)] = [] ∧
    extract_frontend_api_calls "const y = getValue(2);".data = [] :=
  extractors_empty_on_patternless
    [("a.routes".data, "export const x = 1;".data)]
    ("const y = getValue(2);".data) (by decide) (by decide)

/-- The per-file record lists, concatenated in directory order (what the
grouping flattens to, up to permutation). -/
def filesRoutes : List (Str × Str) → List Route
  | [] => []
  | f :: t => extractBackendFile f.2 ++ filesRoutes t

theorem routesFlat_addRoute (gs : List (Str × List Route)) (k : Str) (r : Route) :
    List.Perm (routesFlat (addRoute gs k r)) (r :: routesFlat gs) := by
  induction gs with
  | nil => simp [addRoute, routesFlat]
  | cons g t ih =>
    obtain ⟨k', rs⟩ := g
    by_cases h : k' = k
    · simp only [addRoute, if_pos h, routesFlat]
      rw [List.append_assoc]
      simp
    · simp only [addRoute, if_neg h, routesFlat]
      exact (List.Perm.append_left rs ih).trans List.perm_middle

theorem routesFlat_foldl_addRoute (rs : List Route) (gs : List (Str × List Route)) (k : Str) :
    List.Perm (routesFlat (rs.foldl (fun gs r => addRoute gs k r) gs)) (routesFlat gs ++ rs) := by
  induction rs generalizing gs with
  | nil => simp
  | cons r t ih =>
    simp only [List.foldl_cons]
    exact (ih _).trans
      (((routesFlat_addRoute gs k r).append_right t).trans List.perm_middle.symm)

theorem routesFlat_extract (files : List (Str × Str)) :
    List.Perm (routesFlat (extract_backend_routes files)) (filesRoutes files) := by
  suffices h : ∀ (fs : List (Str × Str)) (gs : List (Str × List Route)),
      List.Perm (routesFlat (fs.foldl
        (fun gs f => (extractBackendFile f.2).foldl (fun gs r => addRoute gs f.1 r) gs) gs))
        (routesFlat gs ++ filesRoutes fs) by
    simpa [routesFlat] using h files []
  intro fs
  induction fs with
  | nil => intro gs; simp [filesRoutes]
  | cons f t ih =>
    intro gs
    simp only [List.foldl_cons, filesRoutes]
    refine ((ih _).trans
      (((routesFlat_foldl_addRoute _ gs f.1).append_right _).trans ?_))
    rw [List.append_assoc]

theorem filesRoutes_perm : ∀ {files₁ files₂ : List (Str × Str)}, List.Perm files₁ files₂ →
    List.Perm (filesRoutes files₁) (filesRoutes files₂) := by
  intro files₁ files₂ h
  induction h with
  | nil => exact List.Perm.refl _
  | cons x h ih => exact List.Perm.append_left _ ih
  | swap x y t =>
    simp only [filesRoutes, ← List.append_assoc]
    exact (List.perm_append_comm.append_right _)
  | trans h1 h2 ih1 ih2 => exact ih1.trans ih2

theorem any_perm {α : Type} {l₁ l₂ : List α} (h : List.Perm l₁ l₂) (p : α → Bool) :
    l₁.any p = l₂.any p := by
  induction h with
  | nil => rfl
  | cons x h ih => simp [List.any_cons, ih]
  | swap x y t => simp [List.any_cons, Bool.or_left_comm]
  | trans _ _ ih1 ih2 => rw [ih1, ih2]

theorem foundIn_eq_any (key : Str) (set : List Str) :
    foundIn key set = set.any (keyMatches key) := by
  induction set with
  | nil => rfl
  | cons b t ih =>
    simp only [foundIn, List.any_cons]
    by_cases h : keyMatches key b <;> simp [h, ih]

end VerifyApi

namespace VerifyApi

/-- C9: the run's outcome does not depend on the order in which the backend
route files are visited. For any permutation of the (file stem, content)
list, the missing-backend list, every feature-check backend verdict, and the
final exit status are identical. -/
theorem exit_independent_of_file_order (files₁ files₂ : List (Str × Str)) (fcontent : Str)
    (h : files₁.Perm files₂) :
    missingBackend (extract_backend_routes files₁) (extract_frontend_api_calls fcontent)
        = missingBackend (extract_backend_routes files₂) (extract_frontend_api_calls fcontent)
      ∧ (∀ m normd, featureBackendHas (extract_backend_routes files₁) m normd
          = featureBackendHas (extract_backend_routes files₂) m normd)
      ∧ exitMain files₁ fcontent = exitMain files₂ fcontent := by
  have hperm : List.Perm (routesFlat (extract_backend_routes files₁))
      (routesFlat (extract_backend_routes files₂)) :=
    (routesFlat_extract files₁).trans ((filesRoutes_perm h).trans (routesFlat_extract files₂).symm)
  have hfound : ∀ key, foundIn key (backendKeys (extract_backend_routes files₁))
      = foundIn key (backendKeys (extract_backend_routes files₂)) := by
    intro key
    rw [foundIn_eq_any, foundIn_eq_any]
    exact any_perm (hperm.map normKey) _
  have hmissing : missingBackend (extract_backend_routes files₁)
        (extract_frontend_api_calls fcontent)
      = missingBackend (extract_backend_routes files₂)
        (extract_frontend_api_calls fcontent) := by
    unfold missingBackend
    exact List.filter_congr fun c _ => by rw [hfound]
  have hbha : ∀ m normd, featureBackendHas (extract_backend_routes files₁) m normd
      = featureBackendHas (extract_backend_routes files₂) m normd := by
    intro m normd
    unfold featureBackendHas
    exact any_perm hperm _
  refine ⟨hmissing, hbha, ?_⟩
  unfold exitMain
  rw [issuesFound_eq, issuesFound_eq, hmissing]
  have hfeat : ∀ r, featRouteOk (extract_backend_routes files₁)
        (extract_frontend_api_calls fcontent) r
      = featRouteOk (extract_backend_routes files₂)
        (extract_frontend_api_calls fcontent) r := by
    intro r
    unfold featRouteOk
    rw [hbha]
  simp only [hfeat]

/-- C9 witness: swapping two concrete backend files leaves the exit status
unchanged. -/
theorem exit_independent_of_file_order_witness :
    exitMain [("a.routes".data, "router.get('/a');".data),
              ("b.routes".data, "router.post('/b');".data)]
        "this.client.get('/a');".data
      = exitMain [("b.routes".data, "router.post('/b');".data),
                  ("a.routes".data, "router.get('/a');".data)]
          "this.client.get('/a');".data :=
  (exit_independent_of_file_order _ _ _
    (List.Perm.swap ("b.routes".data, "router.post('/b');".data)
      ("a.routes".data, "router.get('/a');".data) [])).2.2

/-- Position-instrumented scan: the same traversal as `findAllGo`, also
recording the index of each match site. -/
def findAllPosGo (pfx : Str) (typed : Bool) (q : Char) :
    Nat → Nat → Str → List (Nat × (Str × Str))
  | _, _, [] => []
  | i, Nat.succ k, _ :: t => findAllPosGo pfx typed q (i + 1) k t
  | i, 0, c :: t =>
    match tryPat pfx typed q (c :: t) with
    | some (a, rest) =>
      (i, a) :: findAllPosGo pfx typed q (i + 1) ((c :: t).length - rest.length - 1) t
    | none => findAllPosGo pfx typed q (i + 1) 0 t

def findAllPos (pfx : Str) (typed : Bool) (q : Char) (l : Str) : List (Nat × (Str × Str)) :=
  findAllPosGo pfx typed q 0 0 l

theorem findAllPosGo_map_snd (pfx : Str) (typed : Bool) (q : Char) :
    ∀ (t : Str) (i k : Nat),
      (findAllPosGo pfx typed q i k t).map Prod.snd = findAllGo pfx typed q k t := by
  intro t
  induction t with
  | nil => intro i k; cases k <;> rfl
  | cons c t2 ih =>
    intro i k
    cases k with
    | succ k2 =>
      simp only [findAllPosGo, findAllGo]
      exact ih _ _
    | zero =>
      cases h : tryPat pfx typed q (c :: t2) with
      | some ar =>
        obtain ⟨a, rest⟩ := ar
        simp only [findAllPosGo, findAllGo, h, List.map_cons]
        rw [ih]
      | none =>
        simp only [findAllPosGo, findAllGo, h]
        exact ih _ _

theorem findAllPosGo_pos_ge (pfx : Str) (typed : Bool) (q : Char) :
    ∀ (t : Str) (i k : Nat) (x : Nat × (Str × Str)),
      x ∈ findAllPosGo pfx typed q i k t → i ≤ x.1 := by
  intro t
  induction t with
  | nil => intro i k x hx; cases k <;> simp [findAllPosGo] at hx
  | cons c t2 ih =>
    intro i k x hx
    cases k with
    | succ k2 =>
      simp only [findAllPosGo] at hx
      exact Nat.le_of_succ_le (ih _ _ x hx)
    | zero =>
      cases h : tryPat pfx typed q (c :: t2) with
      | some ar =>
        obtain ⟨a, rest⟩ := ar
        simp only [findAllPosGo, h] at hx
        rcases List.mem_cons.mp hx with rfl | hx2
        · exact Nat.le_refl _
        · exact Nat.le_of_succ_le (ih _ _ x hx2)
      | none =>
        simp only [findAllPosGo, h] at hx
        exact Nat.le_of_succ_le (ih _ _ x hx)

theorem findAllPosGo_chain (pfx : Str) (typed : Bool) (q : Char) :
    ∀ (t : Str) (i k : Nat),
      List.Chain' (· < ·) ((findAllPosGo pfx typed q i k t).map Prod.fst) := by
  intro t
  induction t with
  | nil => intro i k; cases k <;> simp [findAllPosGo]
  | cons c t2 ih =>
    intro i k
    cases k with
    | succ k2 =>
      simp only [findAllPosGo]
      exact ih _ _
    | zero =>
      cases h : tryPat pfx typed q (c :: t2) with
      | some ar =>
        obtain ⟨a, rest⟩ := ar
        simp only [findAllPosGo, h, List.map_cons]
        rw [List.chain'_cons']
        refine ⟨?_, ih _ _⟩
        intro b hb
        have hb2 := List.mem_of_mem_head? hb
        obtain ⟨x, hx, rfl⟩ := List.mem_map.mp hb2
        exact Nat.lt_of_succ_le (findAllPosGo_pos_ge pfx typed q t2 _ _ x hx)
      | none =>
        simp only [findAllPosGo, h]
        exact ih _ _

end VerifyApi

namespace VerifyApi

/-- C6 amended: each extractor applies its fixed patterns one after the other
and concatenates their match lists, so records are grouped by pattern variant
(quote style, type-parameter presence) in the fixed pattern order; within one
pattern the match sites appear in strictly increasing source-position order.
Source order across different pattern variants is not preserved. -/
theorem extractor_pattern_order (content : Str) :
    (extract_frontend_api_calls content
      = ((findAll fprefix true '\'' content) ++ (findAll fprefix true '"' content)
          ++ (findAll fprefix false '\'' content) ++ (findAll fprefix false '"' content)).map
            mkCall)
    ∧ (extractBackendFile content
      = ((findAll bprefix false '\'' content) ++ (findAll bprefix false '"' content)).map
          mkBackendRoute)
    ∧ (∀ (pfx : Str) (typed : Bool) (q : Char),
        (findAllPos pfx typed q content).map Prod.snd = findAll pfx typed q content
        ∧ List.Chain' (· < ·) ((findAllPos pfx typed q content).map Prod.fst)) :=
  ⟨rfl, rfl, fun pfx typed q =>
    ⟨findAllPosGo_map_snd pfx typed q content 0 0, findAllPosGo_chain pfx typed q content 0 0⟩⟩

/-- C6 counterexample: records are not in source order when quote styles or
type-parameter variants are mixed. In the backend file below, `GET "/a"`
(double quotes) is declared at index 0, before `POST '/b'` (single quotes) at
index 17, yet the extracted group lists POST first, because the single-quote
pattern is applied to the whole file before the double-quote pattern. The
frontend conjunct shows the same inversion for type-parameter variants. -/
theorem extractor_pattern_order_cx :
    extractBackendFile "router.get(\"/a\");router.post('/b');".data
      = [⟨"POST".data, "/b".data⟩, ⟨"GET".data, "/a".data⟩]
    ∧ (findAllPos bprefix false '\''
        "router.get(\"/a\");router.post('/b');".data).map Prod.fst = [17]
    ∧ (findAllPos bprefix false '"'
        "router.get(\"/a\");router.post('/b');".data).map Prod.fst = [0]
    ∧ extract_frontend_api_calls "this.client.get('/b');this.client.get<T>('/a');".data
      = [⟨"GET".data, "/a".data⟩, ⟨"GET".data, "/b".data⟩] := by decide

end VerifyApi

section Sanity
open VerifyApi
example : normalize_path "/api/users/:id".data = "users/:id".data := by decide
example : normalize_path "users/${userId}".data = "users/:id".data := by decide
example : normalize_path "a/api/api/b".data = "a/api/b".data := by decide
example : hasSub "/api/".data "a/api/b".data = true := by decide
example : stripId "GET:xp/:id/qy".data = "GET:xp//qy".data := by decide
example :
    extract_frontend_api_calls "this.client.get('/users');".data
      = [⟨"GET".data, "/users".data⟩] := by decide
example :
    extractBackendFile "router.get('/users');".data = [⟨"GET".data, "/users".data⟩] := by decide
example :
    missingBackend (extract_backend_routes [("users.routes".data, "router.get('/users');".data)])
      (extract_frontend_api_calls "this.client.get('/users');".data) = [] := by decide
example :
    exitMain [("users.routes".data, "router.get('/users');".data)]
      "this.client.get('/users');".data = 1 := by decide
example :
    extractBackendFile "router.get(\"/a\");router.post('/b');".data
      = [⟨"POST".data, "/b".data⟩, ⟨"GET".data, "/a".data⟩] := by decide
end Sanity
